import Mathlib

/-!
Verification development for the HotFlip adversarial attacker
(allennlp/interpret/attackers/hotflip.py).

The Python module is shallowly embedded: token sequences are lists of
strings, vocabulary ids are naturals, gradient and embedding entries are
integers, and the -inf written over disallowed candidate scores is the
bottom element of `WithBot ℤ`.  External collaborators (the predictor's
gradient/labelling machinery) are oracle parameters, so every theorem
quantifies over their behaviour.
-/

namespace Hotflip

/-- Dot product of two integer vectors (models the numpy/torch dot products
taken between a gradient row and an embedding row). -/
def dot (v w : List ℤ) : ℤ :=
  (List.zipWith (fun a b => a * b) v w).sum

/-- Scanner behind the numpy.argmax model: walks the remaining list keeping
the first index that attains the running maximum.  The pair holds the best
index and the best value so far; `i` is the index of the head of the
remaining list inside the full list. -/
def argmaxPair {α : Type} [LinearOrder α] : List α → (ℕ × α) → ℕ → (ℕ × α)
  | [], p, _ => p
  | y :: ys, p, i => if p.2 < y then argmaxPair ys (i, y) (i + 1) else argmaxPair ys p (i + 1)

/-- numpy.argmax over a list: index of the first maximal element.  numpy
raises ValueError on an empty array, modelled by `none`. -/
def npArgmax {α : Type} [LinearOrder α] : List α → Option ℕ
  | [] => none
  | x :: xs => some (argmaxPair xs (0, x) 1).1

/-- Python str.isalnum restricted to the character classes the model sees
(letters and digits); the empty string is not alphanumeric. -/
def pyIsAlnum (s : String) : Bool :=
  (!s.isEmpty) && s.toList.all Char.isAlphanum

/-- Hotflip.__init__: the precomputed invalid-replacement set, i.e. every
vocabulary id whose surface token is not alphanumeric. -/
def invalidReplacementIndices (vocabTokens : List String) : List ℕ :=
  (List.range vocabTokens.length).filter (fun i => !pyIsAlnum (vocabTokens.getD i ""))

/-- Hotflip._first_order_taylor, scores part: one entry per embedding row k,
holding sign * (g·E[t] - g·E[k]); the code then writes -inf over every entry
whose id lies in the invalid-replacement set (the mask is fused into the
construction here, which yields the same array). -/
def taylorScores (grad : List ℤ) (E : List (List ℤ)) (tokenIdx : ℕ) (sgn : ℤ)
    (invalid : List ℕ) : List (WithBot ℤ) :=
  let prev := dot grad (E.getD tokenIdx [])
  (List.range E.length).map (fun k =>
    if k ∈ invalid then (⊥ : WithBot ℤ)
    else ((sgn * (prev - dot grad (E.getD k [])) : ℤ) : WithBot ℤ))

/-- Hotflip._first_order_taylor: argmax over the masked scores.  The Python
code would raise on an empty embedding matrix; the total model returns 0
there (every claim about the selector assumes a nonempty matrix). -/
def firstOrderTaylor (grad : List ℤ) (E : List (List ℤ)) (tokenIdx : ℕ) (sgn : ℤ)
    (invalid : List ℕ) : ℕ :=
  (npArgmax (taylorScores grad E tokenIdx sgn invalid)).getD 0

/-- The spec's candidate score, written from its words: d_k = s·(g·e - g·E[k])
with d_k = -∞ for every id in the invalid-replacement set. -/
def taylorScoreSpec (grad : List ℤ) (E : List (List ℤ)) (tokenIdx : ℕ) (sgn : ℤ)
    (invalid : List ℕ) (k : ℕ) : WithBot ℤ :=
  if k ∈ invalid then ⊥
  else ((sgn * (dot grad (E.getD tokenIdx []) - dot grad (E.getD k [])) : ℤ) : WithBot ℤ)

/-! ### Data model of the attack loop -/

/-- Structured-output spans: a list of clusters, each cluster a list of
mentions given as inclusive (start, end) position pairs. -/
abbrev Clusters : Type := List (List (ℕ × ℕ))

/-- The raw model outputs the loop inspects: the optional clusters entry plus
an opaque tag standing for the remaining output fields. -/
structure Outputs where
  clusters : Option Clusters
  raw : ℕ
deriving DecidableEq

/-- The external predictor, as the loop sees it: per token sequence it yields
the gradients for grad_input_field (one vector per position), the raw model
outputs, and whether the relabeled instance differs from the reference on the
fields to compare (utils.instance_has_changed after
predictions_to_labeled_instances). -/
structure Oracle where
  gradsOf : List String → List (List ℤ)
  outputsOf : List String → Outputs
  changedOf : List String → Bool

/-- Attack-wide configuration: the vocabulary for the attack namespace, the
constructed embedding matrix, and the invalid-replacement set. -/
structure AttackCfg where
  vocabTokens : List String
  E : List (List ℤ)
  invalid : List ℕ

/-- vocab._token_to_index lookup for the attack namespace (ids are positions
in the vocabulary list). -/
def tokenId (cfg : AttackCfg) (t : String) : ℕ :=
  cfg.vocabTokens.indexOf t

/-- vocab._index_to_token lookup for the attack namespace. -/
def idToToken (cfg : AttackCfg) (i : ℕ) : String :=
  cfg.vocabTokens.getD i ""

/-- Per-iteration loop state: the mutable token list, the flipped/premasked
positions, and the most recent gradients and outputs from the predictor. -/
structure LoopState where
  tokens : List String
  flipped : List ℕ
  outputs : Outputs
  grads : List (List ℤ)
deriving DecidableEq

/-- set(tuple(l) for l in a) == set(tuple(l) for l in b): the two cluster
lists contain the same clusters as sets. -/
def clustersSetEq (a b : Clusters) : Bool :=
  List.all a (fun c => decide (c ∈ b)) && List.all b (fun c => decide (c ∈ a))

/-- grads_magnitude[i] = -1 for every i in the given index list (Python list
assignment; out-of-range writes, which Python would reject, are no-ops). -/
def maskIndices (m : List ℤ) (is : List ℕ) : List ℤ :=
  is.foldl (fun mm i => mm.set i (-1)) m

/-- range(mention[0], mention[1] + 1): the inclusive index range of one
mention. -/
def mentionIndices (men : ℕ × ℕ) : List ℕ :=
  List.range' men.1 (men.2 + 1 - men.1)

/-- All positions covered by any mention of any cluster, in the nested
iteration order of the code. -/
def clusterMaskIndices (cs : Clusters) : List ℕ :=
  cs.foldr (fun c acc => c.foldr (fun men acc2 => mentionIndices men ++ acc2) acc) []

/-- The masked gradient magnitudes of one iteration: squared L2 norms, then
-1 written over every already-flipped position, then -1 over every position
covered by a cluster mention of the current outputs. -/
def maskedMagnitudes (s : LoopState) : List ℤ :=
  let mags := s.grads.map (fun g => dot g g)
  let mags2 := maskIndices mags s.flipped
  match s.outputs.clusters with
  | none => mags2
  | some cs => maskIndices mags2 (clusterMaskIndices cs)

/-- Position j lies inside some mention of the (optional) cluster output. -/
def spanCoveredP (co : Option Clusters) (j : ℕ) : Prop :=
  ∃ cs, co = some cs ∧ ∃ c ∈ cs, ∃ men ∈ c, men.1 ≤ j ∧ j ≤ men.2

/-- The token list after flipping position idx: the id of the current token
is looked up, _first_order_taylor picks the replacement id (sign 1 for the
targeted attack, -1 for the untargeted one), and the id is converted back to
surface text. -/
def flipTokenAt (cfg : AttackCfg) (targeted : Bool) (s : LoopState) (idx : ℕ) : List String :=
  let tid := (s.tokens.map (tokenId cfg)).getD idx 0
  let sgn : ℤ := if targeted then 1 else -1
  s.tokens.set idx (idToToken cfg (firstOrderTaylor (s.grads.getD idx []) cfg.E tid sgn cfg.invalid))

/-- The stopping decision taken after a flip, from the fresh outputs.
Untargeted (lines 177-182): when clusters are present, stop exactly when the
cluster sets differ from the original snapshot (elif: the field comparison is
skipped); otherwise stop when the compared fields changed.  Targeted (lines
288-293): when clusters are present and diverge, stop; independently (if, not
elif) stop when the compared fields are unchanged.  none models the Python
NameError raised when clusters appear but no original snapshot was ever
taken. -/
def stopDecision (targeted : Bool) (origClusters : Option Clusters) (changed : Bool)
    (outs : Outputs) : Option Bool :=
  match outs.clusters with
  | some cs =>
      match origClusters with
      | none => none
      | some ocs =>
          if targeted then
            if !clustersSetEq ocs cs then some true else some (!changed)
          else some (!clustersSetEq ocs cs)
  | none => if targeted then some (!changed) else some changed

/-- Result of one pass through the while-loop body. -/
inductive StepRes
  | exhausted
  | failed
  | stopped (s2 : LoopState)
  | continued (s2 : LoopState)
deriving DecidableEq

/-- One pass through the while-loop body of attack_from_json /
targeted_attack_from_json: mask the gradient magnitudes, take the argmax,
break when its value is -1 (every position consumed), otherwise flip the
selected position, query the predictor again, and evaluate the stopping
decision. -/
def hotflipStep (cfg : AttackCfg) (oracle : Oracle) (targeted : Bool)
    (origClusters : Option Clusters) (s : LoopState) : StepRes :=
  match npArgmax (maskedMagnitudes s) with
  | none => .failed
  | some idx =>
      if (maskedMagnitudes s).getD idx 0 = -1 then .exhausted
      else
        match stopDecision targeted origClusters
            (oracle.changedOf (flipTokenAt cfg targeted s idx))
            (oracle.outputsOf (flipTokenAt cfg targeted s idx)) with
        | none => .failed
        | some true =>
            .stopped ⟨flipTokenAt cfg targeted s idx, s.flipped ++ [idx],
                      oracle.outputsOf (flipTokenAt cfg targeted s idx),
                      oracle.gradsOf (flipTokenAt cfg targeted s idx)⟩
        | some false =>
            .continued ⟨flipTokenAt cfg targeted s idx, s.flipped ++ [idx],
                        oracle.outputsOf (flipTokenAt cfg targeted s idx),
                        oracle.gradsOf (flipTokenAt cfg targeted s idx)⟩

/-- Outcome of the while loop: finished (with the completed-iteration count),
failed (a Python exception), or out of fuel (never reached; proved below). -/
inductive RunRes
  | finished (s2 : LoopState) (iters : ℕ)
  | failed
  | outOfFuel (s2 : LoopState)
deriving DecidableEq

/-- The while-True loop, fuelled.  iters counts completed iterations (flips
performed). -/
def runLoop (cfg : AttackCfg) (oracle : Oracle) (targeted : Bool)
    (origClusters : Option Clusters) : ℕ → LoopState → ℕ → RunRes
  | 0, s, _ => .outOfFuel s
  | fuel + 1, s, iters =>
      match hotflipStep cfg oracle targeted origClusters s with
      | .exhausted => .finished s iters
      | .failed => .failed
      | .stopped s2 => .finished s2 (iters + 1)
      | .continued s2 => runLoop cfg oracle targeted origClusters fuel s2 (iters + 1)

/-- Default ignore list of both attack entry points. -/
def defaultIgnoreTokens : List String := ["@@NULL@@", ".", ",", ";", "!", "?"]

/-- attack_from_json pre-mask: positions whose surface text is in the ignore
list are recorded as already flipped. -/
def premaskUntargeted (ignoreTokens : List String) (tokens : List String) : List ℕ :=
  (List.range tokens.length).filter (fun i => decide (tokens.getD i "" ∈ ignoreTokens))

/-- targeted_attack_from_json pre-mask: when a target word is supplied, every
position whose text differs from it is recorded as flipped (the ignore list
is not consulted); otherwise the ignore-list rule applies. -/
def premaskTargeted (ignoreTokens : List String) (targetWord : Option String)
    (tokens : List String) : List ℕ :=
  match targetWord with
  | some w => (List.range tokens.length).filter (fun i => decide (tokens.getD i "" ≠ w))
  | none => (List.range tokens.length).filter (fun i => decide (tokens.getD i "" ∈ ignoreTokens))

/-- The loop state at loop entry: the instance tokens, the pre-mask, and the
first get_gradients call. -/
def initialState (oracle : Oracle) (tokens : List String) (premask : List ℕ) : LoopState :=
  ⟨tokens, premask, oracle.outputsOf tokens, oracle.gradsOf tokens⟩

/-- One labeled instance to attack, together with the predictor behaviour on
it (fields_to_compare are fixed per instance, so each instance carries its
own oracle). -/
structure InstanceRun where
  tokens : List String
  oracle : Oracle

/-- An oracle with empty behaviour, used only as the Inhabited default. -/
def trivialOracle : Oracle :=
  ⟨fun _ => [], fun _ => ⟨none, 0⟩, fun _ => false⟩

instance : Inhabited InstanceRun := ⟨⟨[], trivialOracle⟩⟩

/-- The per-instance part of the attack: take the original-outputs snapshot
if the initial outputs carry clusters (otherwise keep the one inherited from
earlier instances), then run the loop.  Returns the final tokens, the last
outputs, and the snapshot to pass on; none models a propagated Python
exception.  Fuel length+1 is sufficient (proved below). -/
def runOneInstance (cfg : AttackCfg) (targeted : Bool)
    (premaskOf : List String → List ℕ) (prevOrig : Option Clusters)
    (r : InstanceRun) : Option (List String × Outputs × Option Clusters) :=
  let s0 := initialState r.oracle r.tokens (premaskOf r.tokens)
  let origClusters :=
    match s0.outputs.clusters with
    | some cs => some cs
    | none => prevOrig
  match runLoop cfg r.oracle targeted origClusters (r.tokens.length + 1) s0 0 with
  | .finished s2 _ => some (s2.tokens, s2.outputs, origClusters)
  | _ => none

/-- The for-loop over labeled instances: run each instance, collect its final
tokens, and break after the first instance whose last outputs carry clusters.
Returns the collected final token lists and the outputs variable as left by
the last processed instance. -/
def runInstances (cfg : AttackCfg) (targeted : Bool)
    (premaskOf : List String → List ℕ) :
    List InstanceRun → Option Clusters → Option (List (List String) × Outputs)
  | [], _ => none
  | r :: rest, po =>
      match runOneInstance cfg targeted premaskOf po r with
      | none => none
      | some (ft, outs, po2) =>
          if outs.clusters.isSome then some ([ft], outs)
          else
            match rest with
            | [] => some ([ft], outs)
            | r2 :: rest2 =>
                match runInstances cfg targeted premaskOf (r2 :: rest2) po2 with
                | none => none
                | some (fts, louts) => some (ft :: fts, louts)

/-- The JSON-shaped result of an attack. -/
structure AttackResult where
  final : List (List String)
  original : List String
  outputs : Outputs
deriving DecidableEq

/-- attack_from_json: snapshot the first instance's tokens, run every
instance, and report the final token lists, that snapshot, and the last
outputs.  An empty instance list models the IndexError on
original_instances[0]. -/
def attackFromJson (cfg : AttackCfg) (ignoreTokens : Option (List String))
    (runs : List InstanceRun) : Option AttackResult :=
  let ig := ignoreTokens.getD defaultIgnoreTokens
  match runs with
  | [] => none
  | r0 :: _ =>
      match runInstances cfg false (premaskUntargeted ig) runs none with
      | none => none
      | some (fts, outs) => some ⟨fts, r0.tokens, outs⟩

/-- targeted_attack_from_json: raises ValueError("set the target") when no
target is given, before the input JSON is converted to instances and before
any predictor call; otherwise labels the instances with the target and runs
the same loop with sign 1 and the inverted stopping rule. -/
def targetedAttackFromJson (cfg : AttackCfg) (ignoreTokens : Option (List String))
    (toInstances : String → List InstanceRun) (target : Option String)
    (targetWord : Option String) : Except String AttackResult :=
  match target with
  | none => .error "set the target"
  | some t =>
      let ig := ignoreTokens.getD defaultIgnoreTokens
      match toInstances t with
      | [] => .error "no instances"
      | r0 :: rest =>
          match runInstances cfg true (premaskTargeted ig targetWord) (r0 :: rest) none with
          | none => .error "attack failed"
          | some (fts, outs) => .ok ⟨fts, r0.tokens, outs⟩

/-! ### Embedding-matrix construction (_construct_embedding_matrix) -/

/-- The token-encoding schemes handled during matrix construction: the plain
single-id input always present, character-level encodings, and ELMo
character encodings.  The encoding functions stand for the respective
indexers' tokens_to_indices. -/
inductive TokenIndexerKind
  | singleId
  | tokenCharacters (charIds : String → List ℕ)
  | elmoCharacters (elmoIds : String → List ℕ)

/-- The synthetic all-vocabulary batch fed to the embedding stage. -/
structure EncodedBatch where
  tokens : List ℕ
  tokenCharacters : Option (List (List ℕ))
  elmo : Option (List (List ℕ))

/-- Pad a character-id list to the width of the longest vocabulary token. -/
def padTo (n : ℕ) (l : List ℕ) : List ℕ :=
  l ++ List.replicate (n - l.length) 0

/-- max(len(x) for x in all_tokens); 0 on an empty vocabulary (where Python
max would raise). -/
def maxTokenLength (vocabTokens : List String) : ℕ :=
  (vocabTokens.map String.length).foldr max 0

/-- One iteration of the indexer loop: add the encoding a single declared
indexer contributes to the synthetic batch. -/
def addIndexerEncoding (vocabTokens : List String) (b : EncodedBatch)
    (ix : TokenIndexerKind) : EncodedBatch :=
  match ix with
  | .singleId => b
  | .tokenCharacters f =>
      { b with
        tokenCharacters :=
          some (vocabTokens.map (fun t => padTo (maxTokenLength vocabTokens) (f t))) }
  | .elmoCharacters f =>
      { b with elmo := some (vocabTokens.map f) }

/-- Build all_inputs: the id of every vocabulary token, plus, per declared
indexer, a padded character-level encoding or an ELMo encoding of every
token. -/
def buildInputs (vocabTokens : List String) (indexers : List TokenIndexerKind) : EncodedBatch :=
  indexers.foldl (addIndexerEncoding vocabTokens)
    ⟨List.range vocabTokens.length, none, none⟩

/-- The model's embedding stage: either a direct lookup table or a callable
encoder pipeline. -/
inductive EmbeddingLayer
  | lookup (weight : List (List ℤ))
  | encoderStage (f : EncodedBatch → List (List ℤ))

/-- The wrapped result of matrix construction (the Embedding object built at
the end of _construct_embedding_matrix). -/
structure EmbeddingMatrix where
  numEmbeddings : ℕ
  embeddingDim : ℕ
  weight : List (List ℤ)
  trainable : Bool

/-- _construct_embedding_matrix: build the all-vocabulary batch; if the
embedding stage is a direct lookup table take its weight verbatim, otherwise
feed the batch through the stage.  The Bool records whether a forward pass
was run. -/
def constructEmbeddingMatrix (vocabTokens : List String)
    (indexers : List TokenIndexerKind) (layer : EmbeddingLayer) :
    EmbeddingMatrix × Bool :=
  let allInputs := buildInputs vocabTokens indexers
  let mf : List (List ℤ) × Bool :=
    match layer with
    | .lookup w => (w, false)
    | .encoderStage f => (f allInputs, true)
  (⟨vocabTokens.length, (mf.1.getD 0 []).length, mf.1, false⟩, mf.2)

/-! ### A concrete fixture (vocabulary aa/bb/cc with one-dimensional
embeddings 1, 2, 4; every gradient is [1]; prediction changes exactly when
the tokens differ from ["aa"]) used to instantiate the theorems below on
explicit inputs. -/

def exCfg : AttackCfg :=
  ⟨["aa", "bb", "cc"], [[1], [2], [4]], invalidReplacementIndices ["aa", "bb", "cc"]⟩

def exOracle : Oracle :=
  ⟨fun ts => ts.map (fun _ => [1]), fun _ => ⟨none, 7⟩, fun ts => decide (ts ≠ ["aa"])⟩

def exStateU : LoopState := ⟨["aa"], [], ⟨none, 7⟩, [[1]]⟩

def exStopU : LoopState := ⟨["cc"], [0], ⟨none, 7⟩, [[1]]⟩

def exStopT : LoopState := ⟨["aa"], [0], ⟨none, 7⟩, [[1]]⟩

def exRun : InstanceRun := ⟨["aa"], exOracle⟩

/-- A concrete encoder stage producing one one-dimensional row per input
token id. -/
def exEncoder (b : EncodedBatch) : List (List ℤ) :=
  b.tokens.map (fun i => [Int.ofNat i])

/-! ### Properties of the argmax model -/

theorem argmaxPair_spec {α : Type} [LinearOrder α] (d : α) :
    ∀ (ys l : List α) (p : ℕ × α) (i : ℕ),
      p.1 < i →
      l.length = i + ys.length →
      l.getD p.1 d = p.2 →
      (∀ j, j < ys.length → l.getD (i + j) d = ys.getD j d) →
      (argmaxPair ys p i).1 < l.length ∧
        l.getD (argmaxPair ys p i).1 d = (argmaxPair ys p i).2 ∧
        p.2 ≤ (argmaxPair ys p i).2 ∧
        ∀ j, j < ys.length → ys.getD j d ≤ (argmaxPair ys p i).2 := by
  intro ys
  induction ys with
  | nil =>
      intro l p i hp hlen hval _
      refine ⟨?_, hval, le_refl _, ?_⟩
      · simpa [hlen] using hp
      · intro j hj; exact absurd hj (by simp)
  | cons y ys ih =>
      intro l p i hp hlen hval hsuf
      have hy : l.getD i d = y := by
        have := hsuf 0 (by simp)
        simpa using this
      have hsuf' : ∀ j, j < ys.length → l.getD (i + 1 + j) d = ys.getD j d := by
        intro j hj
        have := hsuf (j + 1) (by simpa using Nat.succ_lt_succ hj)
        have harith : i + (j + 1) = i + 1 + j := by omega
        simpa [harith] using this
      have hlen' : l.length = i + 1 + ys.length := by
        simp at hlen; omega
      by_cases hlt : p.2 < y
      · have h := ih l (i, y) (i + 1) (Nat.lt_succ_self i) hlen' hy hsuf'
        have hres : argmaxPair (y :: ys) p i = argmaxPair ys (i, y) (i + 1) := by
          simp [argmaxPair, hlt]
        refine ⟨by rw [hres]; exact h.1, by rw [hres]; exact h.2.1, ?_, ?_⟩
        · rw [hres]; exact le_of_lt (lt_of_lt_of_le hlt h.2.2.1)
        · intro j hj
          rw [hres]
          match j with
          | 0 => simpa using h.2.2.1
          | j + 1 =>
              have hj' : j < ys.length := by simpa using Nat.lt_of_succ_lt_succ hj
              simpa using h.2.2.2 j hj'
      · have h := ih l p (i + 1) (Nat.lt_succ_of_lt hp) hlen' hval hsuf'
        have hres : argmaxPair (y :: ys) p i = argmaxPair ys p (i + 1) := by
          simp [argmaxPair, hlt]
        refine ⟨by rw [hres]; exact h.1, by rw [hres]; exact h.2.1, by rw [hres]; exact h.2.2.1, ?_⟩
        · intro j hj
          rw [hres]
          match j with
          | 0 =>
              have : y ≤ p.2 := le_of_not_lt hlt
              simpa using le_trans this h.2.2.1
          | j + 1 =>
              have hj' : j < ys.length := by simpa using Nat.lt_of_succ_lt_succ hj
              simpa using h.2.2.2 j hj'

theorem npArgmax_spec {α : Type} [LinearOrder α] (d : α) (l : List α) (r : ℕ)
    (h : npArgmax l = some r) :
    r < l.length ∧ ∀ j, j < l.length → l.getD j d ≤ l.getD r d := by
  match l with
  | [] => simp [npArgmax] at h
  | x :: xs =>
      have hr : r = (argmaxPair xs (0, x) 1).1 := by
        simp [npArgmax] at h; omega
      have hx : (x :: xs).getD 0 d = x := rfl
      have hsuf : ∀ j, j < xs.length → (x :: xs).getD (1 + j) d = xs.getD j d := by
        intro j hj
        have : 1 + j = j + 1 := by omega
        simp [this]
      have h' := argmaxPair_spec d xs (x :: xs) (0, x) 1 (by omega) (by simp; omega) hx hsuf
      subst hr
      refine ⟨h'.1, ?_⟩
      intro j hj
      rw [h'.2.1]
      match j with
      | 0 => exact h'.2.2.1
      | j + 1 =>
          have hj' : j < xs.length := by simpa using Nat.lt_of_succ_lt_succ hj
          simpa using h'.2.2.2 j hj'


/-! ### Masking lemmas -/

theorem maskIndices_length (is : List ℕ) : ∀ m : List ℤ, (maskIndices m is).length = m.length := by
  induction is with
  | nil => intro m; rfl
  | cons i is ih =>
      intro m
      have hstep : maskIndices m (i :: is) = maskIndices (m.set i (-1)) is := rfl
      rw [hstep, ih]
      simp

theorem maskIndices_getD (is : List ℕ) : ∀ (m : List ℤ) (j : ℕ), j < m.length →
    (maskIndices m is).getD j 0 = if j ∈ is then -1 else m.getD j 0 := by
  induction is with
  | nil => intro m j _; simp [maskIndices]
  | cons i is ih =>
      intro m j hj
      have hstep : maskIndices m (i :: is) = maskIndices (m.set i (-1)) is := rfl
      have hlen : j < (m.set i (-1)).length := by simpa using hj
      rw [hstep, ih _ j hlen]
      by_cases hji : j = i
      · subst hji
        have hset : (m.set j (-1)).getD j 0 = -1 := by
          rw [List.getD_eq_getElem _ _ hlen]
          simp [List.getElem_set]
        have hr : (if j ∈ j :: is then (-1 : ℤ) else m.getD j 0) = -1 := by simp
        rw [hr]
        by_cases hmem : j ∈ is
        · rw [if_pos hmem]
        · rw [if_neg hmem, hset]
      · have hset : (m.set i (-1)).getD j 0 = m.getD j 0 := by
          rw [List.getD_eq_getElem _ _ hlen, List.getD_eq_getElem _ _ hj]
          simp only [List.getElem_set]
          rw [if_neg (fun h => hji h.symm)]
        have hmem : (j ∈ i :: is) ↔ j ∈ is := by simp [List.mem_cons, hji]
        rw [hset]
        by_cases hmem2 : j ∈ is
        · rw [if_pos hmem2, if_pos (hmem.mpr hmem2)]
        · rw [if_neg hmem2, if_neg (fun hc => hmem2 (hmem.mp hc))]

theorem mem_mentionIndices (men : ℕ × ℕ) (j : ℕ) :
    j ∈ mentionIndices men ↔ men.1 ≤ j ∧ j ≤ men.2 := by
  unfold mentionIndices
  rw [List.mem_range'_1]
  omega

theorem mem_mentionFold (c : List (ℕ × ℕ)) : ∀ (acc : List ℕ) (j : ℕ),
    (j ∈ c.foldr (fun men acc2 => mentionIndices men ++ acc2) acc) ↔
      (∃ men ∈ c, j ∈ mentionIndices men) ∨ j ∈ acc := by
  induction c with
  | nil => intro acc j; simp
  | cons men c ih =>
      intro acc j
      simp only [List.foldr_cons, List.mem_append, ih, List.mem_cons]
      constructor
      · rintro (hm | (⟨m2, hm2, hj⟩ | hacc))
        · exact Or.inl ⟨men, Or.inl rfl, hm⟩
        · exact Or.inl ⟨m2, Or.inr hm2, hj⟩
        · exact Or.inr hacc
      · rintro (⟨m2, (rfl | hm2), hj⟩ | hacc)
        · exact Or.inl hj
        · exact Or.inr (Or.inl ⟨m2, hm2, hj⟩)
        · exact Or.inr (Or.inr hacc)

theorem mem_clusterMaskIndices (cs : Clusters) (j : ℕ) :
    j ∈ clusterMaskIndices cs ↔ ∃ c ∈ cs, ∃ men ∈ c, men.1 ≤ j ∧ j ≤ men.2 := by
  unfold clusterMaskIndices
  induction cs with
  | nil => simp
  | cons c cs ih =>
      simp only [List.foldr_cons, mem_mentionFold, ih, List.mem_cons]
      constructor
      · rintro (⟨men, hmen, hj⟩ | ⟨c2, hc2, hrest⟩)
        · exact ⟨c, Or.inl rfl, men, hmen, (mem_mentionIndices men j).mp hj⟩
        · exact ⟨c2, Or.inr hc2, hrest⟩
      · rintro ⟨c2, (rfl | hc2), men, hmen, hj⟩
        · exact Or.inl ⟨men, hmen, (mem_mentionIndices men j).mpr hj⟩
        · exact Or.inr ⟨c2, hc2, men, hmen, hj⟩

theorem maskedMagnitudes_length (s : LoopState) :
    (maskedMagnitudes s).length = s.grads.length := by
  unfold maskedMagnitudes
  cases s.outputs.clusters <;> simp [maskIndices_length]

theorem maskedMagnitudes_eq_of_none (s : LoopState) (hc : s.outputs.clusters = none) :
    maskedMagnitudes s = maskIndices (s.grads.map (fun g => dot g g)) s.flipped := by
  simp only [maskedMagnitudes, hc]

theorem maskedMagnitudes_eq_of_some (s : LoopState) (cs : Clusters)
    (hc : s.outputs.clusters = some cs) :
    maskedMagnitudes s =
      maskIndices (maskIndices (s.grads.map (fun g => dot g g)) s.flipped)
        (clusterMaskIndices cs) := by
  simp only [maskedMagnitudes, hc]

theorem maskedMagnitudes_getD_masked (s : LoopState) (j : ℕ) (hj : j < s.grads.length)
    (h : j ∈ s.flipped ∨ spanCoveredP s.outputs.clusters j) :
    (maskedMagnitudes s).getD j 0 = -1 := by
  have hjm : j < (s.grads.map (fun g => dot g g)).length := by simpa using hj
  have hjm2 : j < (maskIndices (s.grads.map (fun g => dot g g)) s.flipped).length := by
    rw [maskIndices_length]; exact hjm
  cases hc : s.outputs.clusters with
  | none =>
      rw [maskedMagnitudes_eq_of_none s hc, maskIndices_getD _ _ _ hjm]
      rcases h with hf | ⟨cs, hcs, _⟩
      · rw [if_pos hf]
      · rw [hc] at hcs; exact absurd hcs (by simp)
  | some cs =>
      rw [maskedMagnitudes_eq_of_some s cs hc, maskIndices_getD _ _ _ hjm2]
      by_cases hcm : j ∈ clusterMaskIndices cs
      · rw [if_pos hcm]
      · have hf : j ∈ s.flipped := by
          rcases h with hf | ⟨cs2, hcs2, hcov⟩
          · exact hf
          · rw [hc] at hcs2
            have hce : cs = cs2 := Option.some.inj hcs2
            subst hce
            exact absurd ((mem_clusterMaskIndices cs j).mpr hcov) hcm
        rw [if_neg hcm, maskIndices_getD _ _ _ hjm, if_pos hf]

/-! ### One-step characterization of the attack loop -/

theorem flipTokenAt_length (cfg : AttackCfg) (tg : Bool) (s : LoopState) (idx : ℕ) :
    (flipTokenAt cfg tg s idx).length = s.tokens.length := by
  unfold flipTokenAt
  simp

/-- A completed loop iteration (one that flips a token, whether or not the
stopping check then fires) selects a position that is in range, not yet
flipped or pre-masked, and not covered by any cluster mention of the current
outputs; that position is appended to the flipped list and is the one
substituted, and the fresh outputs and gradients come from the predictor on
the substituted tokens. -/
theorem step_spec (cfg : AttackCfg) (oracle : Oracle) (tg : Bool) (oc : Option Clusters)
    (s s2 : LoopState)
    (hg : s.grads.length = s.tokens.length)
    (h : hotflipStep cfg oracle tg oc s = .stopped s2 ∨
         hotflipStep cfg oracle tg oc s = .continued s2) :
    ∃ idx,
      idx < s.tokens.length ∧
      idx ∉ s.flipped ∧
      ¬ spanCoveredP s.outputs.clusters idx ∧
      s2.flipped = s.flipped ++ [idx] ∧
      s2.tokens = flipTokenAt cfg tg s idx ∧
      s2.outputs = oracle.outputsOf s2.tokens ∧
      s2.grads = oracle.gradsOf s2.tokens ∧
      s2.tokens.length = s.tokens.length := by
  unfold hotflipStep at h
  rcases h with h | h <;>
  · split at h
    · exact StepRes.noConfusion h
    next idx hA =>
      split at h
      · exact StepRes.noConfusion h
      next hval =>
        have hidx : idx < (maskedMagnitudes s).length := (npArgmax_spec 0 _ idx hA).1
        have hidxg : idx < s.grads.length := by rwa [maskedMagnitudes_length] at hidx
        have hidxt : idx < s.tokens.length := by omega
        have hnm : ¬ (idx ∈ s.flipped ∨ spanCoveredP s.outputs.clusters idx) := by
          intro hm
          exact hval (maskedMagnitudes_getD_masked s idx hidxg hm)
        rw [not_or] at hnm
        split at h
        · exact StepRes.noConfusion h
        all_goals
          first
          | exact StepRes.noConfusion h
          | (injection h with h2
             refine ⟨idx, hidxt, hnm.1, hnm.2, ?_, ?_, ?_, ?_, ?_⟩ <;>
               rw [← h2] <;> simp [flipTokenAt_length])

/-! ### Loop-level lemmas -/

theorem npArgmax_eq_none_iff {α : Type} [LinearOrder α] (l : List α) :
    npArgmax l = none ↔ l = [] := by
  cases l <;> simp [npArgmax]

theorem nodup_bounded_length (l : List ℕ) (n : ℕ) (hnd : l.Nodup)
    (hb : ∀ i ∈ l, i < n) : l.length ≤ n := by
  have hsub : l.toFinset ⊆ Finset.range n := by
    intro i hi
    exact Finset.mem_range.mpr (hb i (List.mem_toFinset.mp hi))
  calc l.length = l.toFinset.card := (List.toFinset_card_of_nodup hnd).symm
    _ ≤ (Finset.range n).card := Finset.card_le_card hsub
    _ = n := Finset.card_range n

theorem runLoop_succ (cfg : AttackCfg) (oracle : Oracle) (tg : Bool) (oc : Option Clusters)
    (fuel : ℕ) (s : LoopState) (iters : ℕ) :
    runLoop cfg oracle tg oc (fuel + 1) s iters =
      match hotflipStep cfg oracle tg oc s with
      | .exhausted => .finished s iters
      | .failed => .failed
      | .stopped s2 => .finished s2 (iters + 1)
      | .continued s2 => runLoop cfg oracle tg oc fuel s2 (iters + 1) := rfl

/-- Invariant propagation along a completed step: the flipped list stays
duplicate-free and in range, its length grows by one, the token count is
unchanged, and the stored gradients are the oracle's for the new tokens. -/
theorem step_preserves (cfg : AttackCfg) (oracle : Oracle) (tg : Bool) (oc : Option Clusters)
    (s s2 : LoopState)
    (hgc : ∀ ts, (oracle.gradsOf ts).length = ts.length)
    (hgl : s.grads.length = s.tokens.length)
    (hnd : s.flipped.Nodup) (hb : ∀ i ∈ s.flipped, i < s.tokens.length)
    (h : hotflipStep cfg oracle tg oc s = .stopped s2 ∨
         hotflipStep cfg oracle tg oc s = .continued s2) :
    s2.grads.length = s2.tokens.length ∧ s2.flipped.Nodup ∧
      (∀ i ∈ s2.flipped, i < s2.tokens.length) ∧
      s2.tokens.length = s.tokens.length ∧
      s2.flipped.length = s.flipped.length + 1 := by
  obtain ⟨idx, hidx, hnotin, _, hflip, _, _, hgr, hlen⟩ := step_spec cfg oracle tg oc s s2 hgl h
  refine ⟨?_, ?_, ?_, hlen, ?_⟩
  · rw [hgr, hgc]
  · rw [hflip, ← List.concat_eq_append]
    exact List.Nodup.concat hnotin hnd
  · intro i hi
    rw [hflip, List.mem_append] at hi
    rw [hlen]
    rcases hi with hi | hi
    · exact hb i hi
    · simp at hi; omega
  · rw [hflip]; simp

/-- With per-position gradients, fuel (token count + 1) never runs out. -/
theorem runLoop_not_outOfFuel (cfg : AttackCfg) (oracle : Oracle) (tg : Bool)
    (oc : Option Clusters)
    (hgc : ∀ ts, (oracle.gradsOf ts).length = ts.length) :
    ∀ (fuel : ℕ) (s : LoopState) (iters : ℕ),
      s.flipped.Nodup → (∀ i ∈ s.flipped, i < s.tokens.length) →
      s.grads.length = s.tokens.length →
      s.tokens.length + 1 ≤ fuel + s.flipped.length →
      ∀ s2, runLoop cfg oracle tg oc fuel s iters ≠ .outOfFuel s2 := by
  intro fuel
  induction fuel with
  | zero =>
      intro s iters hnd hb hgl hfuel s2 _
      have hlen := nodup_bounded_length s.flipped s.tokens.length hnd hb
      omega
  | succ fuel ih =>
      intro s iters hnd hb hgl hfuel s2
      rw [runLoop_succ]
      cases hstep : hotflipStep cfg oracle tg oc s with
      | exhausted => exact fun hcon => RunRes.noConfusion hcon
      | failed => exact fun hcon => RunRes.noConfusion hcon
      | stopped s3 => exact fun hcon => RunRes.noConfusion hcon
      | continued s3 =>
          obtain ⟨hgl3, hnd3, hb3, hlen3, hgrow3⟩ :=
            step_preserves cfg oracle tg oc s s3 hgc hgl hnd hb (Or.inr hstep)
          exact ih s3 (iters + 1) hnd3 hb3 hgl3 (by omega) s2

/-- The completed-iteration count on loop exit is bounded by the number of
not-yet-flipped positions. -/
theorem runLoop_iters_le (cfg : AttackCfg) (oracle : Oracle) (tg : Bool)
    (oc : Option Clusters)
    (hgc : ∀ ts, (oracle.gradsOf ts).length = ts.length) :
    ∀ (fuel : ℕ) (s : LoopState) (iters : ℕ) (s2 : LoopState) (n : ℕ),
      s.flipped.Nodup → (∀ i ∈ s.flipped, i < s.tokens.length) →
      s.grads.length = s.tokens.length →
      runLoop cfg oracle tg oc fuel s iters = .finished s2 n →
      n ≤ iters + (s.tokens.length - s.flipped.length) := by
  intro fuel
  induction fuel with
  | zero =>
      intro s iters s2 n _ _ _ h
      exact RunRes.noConfusion h
  | succ fuel ih =>
      intro s iters s2 n hnd hb hgl h
      rw [runLoop_succ] at h
      cases hstep : hotflipStep cfg oracle tg oc s with
      | exhausted =>
          rw [hstep] at h
          injection h with _ h2
          omega
      | failed => rw [hstep] at h; exact RunRes.noConfusion h
      | stopped s3 =>
          rw [hstep] at h
          injection h with _ h2
          obtain ⟨_, hnd3, hb3, hlen3, hgrow3⟩ :=
            step_preserves cfg oracle tg oc s s3 hgc hgl hnd hb (Or.inl hstep)
          have hbound := nodup_bounded_length s3.flipped s3.tokens.length hnd3 hb3
          omega
      | continued s3 =>
          rw [hstep] at h
          obtain ⟨hgl3, hnd3, hb3, hlen3, hgrow3⟩ :=
            step_preserves cfg oracle tg oc s s3 hgc hgl hnd hb (Or.inr hstep)
          have hbound := nodup_bounded_length s3.flipped s3.tokens.length hnd3 hb3
          have := ih s3 (iters + 1) s2 n hnd3 hb3 hgl3 h
          omega

/-- When every position is already flipped or pre-masked at loop entry (and
the sequence is nonempty), the very first iteration takes the exhausted
break: the loop exits at once, without error and without a flip. -/
theorem runLoop_exits_when_all_masked (cfg : AttackCfg) (oracle : Oracle) (tg : Bool)
    (oc : Option Clusters) (fuel : ℕ) (s : LoopState) (iters : ℕ)
    (hgl : s.grads.length = s.tokens.length)
    (hne : s.tokens ≠ [])
    (hall : ∀ i, i < s.tokens.length → i ∈ s.flipped) :
    runLoop cfg oracle tg oc (fuel + 1) s iters = .finished s iters := by
  rw [runLoop_succ]
  suffices hstep : hotflipStep cfg oracle tg oc s = .exhausted by rw [hstep]
  unfold hotflipStep
  split
  next hA =>
      rw [npArgmax_eq_none_iff] at hA
      have h0 : s.grads.length = 0 := by
        have h1 := congrArg List.length hA
        rw [maskedMagnitudes_length] at h1
        simpa using h1
      exact absurd (List.eq_nil_of_length_eq_zero (by omega)) hne
  next idx hA =>
      have hidx : idx < (maskedMagnitudes s).length := (npArgmax_spec 0 _ idx hA).1
      rw [maskedMagnitudes_length] at hidx
      have hval : (maskedMagnitudes s).getD idx 0 = -1 :=
        maskedMagnitudes_getD_masked s idx hidx (Or.inl (hall idx (by omega)))
      rw [if_pos hval]

/-! ### The first-order Taylor selector -/

theorem taylorScores_length (grad : List ℤ) (E : List (List ℤ)) (tokenIdx : ℕ) (sgn : ℤ)
    (invalid : List ℕ) : (taylorScores grad E tokenIdx sgn invalid).length = E.length := by
  simp [taylorScores]

theorem taylorScores_getD (grad : List ℤ) (E : List (List ℤ)) (tokenIdx : ℕ) (sgn : ℤ)
    (invalid : List ℕ) (k : ℕ) (hk : k < E.length) :
    (taylorScores grad E tokenIdx sgn invalid).getD k ⊥ =
      taylorScoreSpec grad E tokenIdx sgn invalid k := by
  have hk2 : k < (taylorScores grad E tokenIdx sgn invalid).length := by
    rw [taylorScores_length]; exact hk
  rw [List.getD_eq_getElem _ _ hk2]
  simp [taylorScores, taylorScoreSpec, hk]

/-- The selector returns an in-range id whose spec score d_k is maximal. -/
theorem firstOrderTaylor_argmax (grad : List ℤ) (E : List (List ℤ)) (tokenIdx : ℕ) (sgn : ℤ)
    (invalid : List ℕ) (hne : E ≠ []) :
    firstOrderTaylor grad E tokenIdx sgn invalid < E.length ∧
      ∀ k, k < E.length →
        taylorScoreSpec grad E tokenIdx sgn invalid k ≤
          taylorScoreSpec grad E tokenIdx sgn invalid
            (firstOrderTaylor grad E tokenIdx sgn invalid) := by
  cases hA : npArgmax (taylorScores grad E tokenIdx sgn invalid) with
  | none =>
      rw [npArgmax_eq_none_iff] at hA
      have h0 := congrArg List.length hA
      rw [taylorScores_length] at h0
      simp at h0
      exact absurd h0 hne
  | some r =>
      have hfot : firstOrderTaylor grad E tokenIdx sgn invalid = r := by
        unfold firstOrderTaylor
        rw [hA]
        rfl
      have hspec := npArgmax_spec ⊥ _ r hA
      have hr : r < E.length := by
        have := hspec.1
        rwa [taylorScores_length] at this
      rw [hfot]
      refine ⟨hr, ?_⟩
      intro k hk
      have hk2 : k < (taylorScores grad E tokenIdx sgn invalid).length := by
        rw [taylorScores_length]; exact hk
      have := hspec.2 k hk2
      rwa [taylorScores_getD _ _ _ _ _ k hk, taylorScores_getD _ _ _ _ _ r hr] at this

/-! ### Stopping decision of a completed step -/

theorem step_stopped_decision (cfg : AttackCfg) (oracle : Oracle) (tg : Bool)
    (oc : Option Clusters) (s s2 : LoopState)
    (h : hotflipStep cfg oracle tg oc s = .stopped s2) :
    stopDecision tg oc (oracle.changedOf s2.tokens) s2.outputs = some true := by
  unfold hotflipStep at h
  split at h
  · exact StepRes.noConfusion h
  next idx hA =>
    split at h
    · exact StepRes.noConfusion h
    next hval =>
      split at h
      · exact StepRes.noConfusion h
      next hd =>
          injection h with h2
          rw [← h2]
          exact hd
      next hd => exact StepRes.noConfusion h

theorem step_continued_decision (cfg : AttackCfg) (oracle : Oracle) (tg : Bool)
    (oc : Option Clusters) (s s2 : LoopState)
    (h : hotflipStep cfg oracle tg oc s = .continued s2) :
    stopDecision tg oc (oracle.changedOf s2.tokens) s2.outputs = some false := by
  unfold hotflipStep at h
  split at h
  · exact StepRes.noConfusion h
  next idx hA =>
    split at h
    · exact StepRes.noConfusion h
    next hval =>
      split at h
      · exact StepRes.noConfusion h
      next hd => exact StepRes.noConfusion h
      next hd =>
          injection h with h2
          rw [← h2]
          exact hd

theorem stopDecision_no_clusters (tg : Bool) (oc : Option Clusters) (changed : Bool)
    (outs : Outputs) (hcl : outs.clusters = none) :
    stopDecision tg oc changed outs = if tg then some (!changed) else some changed := by
  unfold stopDecision
  rw [hcl]

theorem stopDecision_clusters_no_orig (tg : Bool) (changed : Bool) (outs : Outputs)
    (cs : Clusters) (hcl : outs.clusters = some cs) :
    stopDecision tg none changed outs = none := by
  unfold stopDecision
  rw [hcl]

theorem stopDecision_clusters_untargeted (changed : Bool) (outs : Outputs)
    (cs ocs : Clusters) (hcl : outs.clusters = some cs) :
    stopDecision false (some ocs) changed outs = some (!clustersSetEq ocs cs) := by
  unfold stopDecision
  rw [hcl]
  rfl

theorem stopDecision_clusters_targeted (changed : Bool) (outs : Outputs)
    (cs ocs : Clusters) (hcl : outs.clusters = some cs) :
    stopDecision true (some ocs) changed outs =
      if !clustersSetEq ocs cs then some true else some (!changed) := by
  unfold stopDecision
  rw [hcl]
  rfl

/-! ### Claim theorems -/

/-- C1: for every gradient g, embedding matrix E, current token id t and sign
s, the candidate selector returns an in-range id maximizing the spec score
d_k = s·(g·E[t] − g·E[k]) with d_k = −∞ on the invalid-replacement set; the
untargeted loop invokes it with s = −1 and the targeted loop with s = +1 on
the position it flips. -/
theorem taylor_selector_argmax_and_signs :
    (∀ (grad : List ℤ) (E : List (List ℤ)) (tokenIdx : ℕ) (sgn : ℤ) (invalid : List ℕ),
      E ≠ [] →
        firstOrderTaylor grad E tokenIdx sgn invalid < E.length ∧
        ∀ k, k < E.length →
          taylorScoreSpec grad E tokenIdx sgn invalid k ≤
            taylorScoreSpec grad E tokenIdx sgn invalid
              (firstOrderTaylor grad E tokenIdx sgn invalid)) ∧
    (∀ (cfg : AttackCfg) (oracle : Oracle) (oc : Option Clusters) (s s2 : LoopState),
      s.grads.length = s.tokens.length →
      (hotflipStep cfg oracle false oc s = .stopped s2 ∨
       hotflipStep cfg oracle false oc s = .continued s2) →
      ∃ idx, idx < s.tokens.length ∧
        s2.tokens = s.tokens.set idx (idToToken cfg
          (firstOrderTaylor (s.grads.getD idx []) cfg.E
            ((s.tokens.map (tokenId cfg)).getD idx 0) (-1) cfg.invalid))) ∧
    (∀ (cfg : AttackCfg) (oracle : Oracle) (oc : Option Clusters) (s s2 : LoopState),
      s.grads.length = s.tokens.length →
      (hotflipStep cfg oracle true oc s = .stopped s2 ∨
       hotflipStep cfg oracle true oc s = .continued s2) →
      ∃ idx, idx < s.tokens.length ∧
        s2.tokens = s.tokens.set idx (idToToken cfg
          (firstOrderTaylor (s.grads.getD idx []) cfg.E
            ((s.tokens.map (tokenId cfg)).getD idx 0) 1 cfg.invalid))) := by
  refine ⟨?_, ?_, ?_⟩
  · intro grad E tokenIdx sgn invalid hne
    exact firstOrderTaylor_argmax grad E tokenIdx sgn invalid hne
  · intro cfg oracle oc s s2 hg h
    obtain ⟨idx, hidx, _, _, _, htok, _, _, _⟩ := step_spec cfg oracle false oc s s2 hg h
    refine ⟨idx, hidx, ?_⟩
    rw [htok]
    simp [flipTokenAt]
  · intro cfg oracle oc s s2 hg h
    obtain ⟨idx, hidx, _, _, _, htok, _, _, _⟩ := step_spec cfg oracle true oc s s2 hg h
    refine ⟨idx, hidx, ?_⟩
    rw [htok]
    simp [flipTokenAt]

/-- Witness for the C1 theorem at explicit inputs (vocabulary aa/bb/cc,
embeddings 1/2/4, gradient [1]). -/
theorem taylor_selector_argmax_and_signs_witness :
    (([[1], [2], [4]] : List (List ℤ)) ≠ [] ∧
      firstOrderTaylor [1] [[1], [2], [4]] 0 (-1) [] < ([[1], [2], [4]] : List (List ℤ)).length ∧
      taylorScoreSpec [1] [[1], [2], [4]] 0 (-1) [] 1 ≤
        taylorScoreSpec [1] [[1], [2], [4]] 0 (-1) []
          (firstOrderTaylor [1] [[1], [2], [4]] 0 (-1) [])) ∧
    (exStateU.grads.length = exStateU.tokens.length ∧
      ∃ idx, idx < exStateU.tokens.length ∧
        exStopU.tokens = exStateU.tokens.set idx (idToToken exCfg
          (firstOrderTaylor (exStateU.grads.getD idx []) exCfg.E
            ((exStateU.tokens.map (tokenId exCfg)).getD idx 0) (-1) exCfg.invalid))) ∧
    (exStateU.grads.length = exStateU.tokens.length ∧
      ∃ idx, idx < exStateU.tokens.length ∧
        exStopT.tokens = exStateU.tokens.set idx (idToToken exCfg
          (firstOrderTaylor (exStateU.grads.getD idx []) exCfg.E
            ((exStateU.tokens.map (tokenId exCfg)).getD idx 0) 1 exCfg.invalid))) := by
  have h1 := taylor_selector_argmax_and_signs.1 [1] [[1], [2], [4]] 0 (-1) [] (by decide)
  have h2 := taylor_selector_argmax_and_signs.2.1 exCfg exOracle none exStateU exStopU
    (by decide) (Or.inl (by decide))
  have h3 := taylor_selector_argmax_and_signs.2.2 exCfg exOracle none exStateU exStopT
    (by decide) (Or.inl (by decide))
  exact ⟨⟨by decide, h1.1, h1.2 1 (by decide)⟩, ⟨by decide, h2⟩, ⟨by decide, h3⟩⟩

/-- C6 counterexample: with a vocabulary whose only token is "!", every id is
in the invalid-replacement set, and the selector (numpy argmax over an
all-(−∞) score row) returns id 0, which lies in that set: the claim fails as
stated. -/
theorem taylor_selector_invalid_counterexample :
    firstOrderTaylor [1] [[1]] 0 (-1) (invalidReplacementIndices ["!"]) ∈
      invalidReplacementIndices ["!"] := by decide

/-- C6 (amended): whenever at least one vocabulary id lies outside the
invalid-replacement set, the selector never returns an invalid id, so no
substitution introduces a non-alphanumeric token. -/
theorem taylor_selector_avoids_invalid (grad : List ℤ) (E : List (List ℤ)) (tokenIdx : ℕ)
    (sgn : ℤ) (invalid : List ℕ)
    (h : ∃ k, k < E.length ∧ k ∉ invalid) :
    firstOrderTaylor grad E tokenIdx sgn invalid ∉ invalid := by
  obtain ⟨k, hk, hkinv⟩ := h
  have hne : E ≠ [] := by
    intro hcon
    rw [hcon] at hk
    simp at hk
  obtain ⟨hr, hmax⟩ := firstOrderTaylor_argmax grad E tokenIdx sgn invalid hne
  intro hrinv
  have hks := hmax k hk
  unfold taylorScoreSpec at hks
  rw [if_neg hkinv, if_pos hrinv, le_bot_iff] at hks
  exact WithBot.coe_ne_bot hks

/-- Witness for the amended C6 theorem at explicit inputs. -/
theorem taylor_selector_avoids_invalid_witness :
    (∃ k, k < ([[1], [2]] : List (List ℤ)).length ∧ k ∉ ([0] : List ℕ)) ∧
    firstOrderTaylor [1] [[1], [2]] 0 (-1) [0] ∉ ([0] : List ℕ) :=
  ⟨⟨1, by decide, by decide⟩,
    taylor_selector_avoids_invalid [1] [[1], [2]] 0 (-1) [0] ⟨1, by decide, by decide⟩⟩

/-- C3: after a flip in the untargeted loop, the loop stops exactly when the
fresh outputs carry clusters whose set differs from the original snapshot,
or carry no clusters and the compared fields changed; in particular equal
cluster sets mean the loop continues no matter what the compared fields do
(the elif skips them). -/
theorem untargeted_stop_iff (cfg : AttackCfg) (oracle : Oracle) (oc : Option Clusters)
    (s s2 : LoopState)
    (h : hotflipStep cfg oracle false oc s = .stopped s2 ∨
         hotflipStep cfg oracle false oc s = .continued s2) :
    (hotflipStep cfg oracle false oc s = .stopped s2 ↔
      ((∃ cs ocs, s2.outputs.clusters = some cs ∧ oc = some ocs ∧
          clustersSetEq ocs cs = false) ∨
       (s2.outputs.clusters = none ∧ oracle.changedOf s2.tokens = true))) := by
  constructor
  · intro hst
    have hd := step_stopped_decision cfg oracle false oc s s2 hst
    cases hcl : s2.outputs.clusters with
    | some cs =>
        cases hoc : oc with
        | none =>
            rw [hoc, stopDecision_clusters_no_orig false _ _ cs hcl] at hd
            exact Option.noConfusion hd
        | some ocs =>
            rw [hoc, stopDecision_clusters_untargeted _ _ cs ocs hcl] at hd
            have hb := Option.some.inj hd
            cases hq : clustersSetEq ocs cs with
            | false => exact Or.inl ⟨cs, ocs, rfl, rfl, hq⟩
            | true => rw [hq] at hb; exact absurd hb (by decide)
    | none =>
        rw [stopDecision_no_clusters false oc _ _ hcl] at hd
        have hb := Option.some.inj hd
        exact Or.inr ⟨rfl, hb⟩
  · intro hrhs
    rcases h with hst | hct
    · exact hst
    · exfalso
      have hd := step_continued_decision cfg oracle false oc s s2 hct
      rcases hrhs with ⟨cs, ocs, hcl, hoc, hne⟩ | ⟨hcl, hch⟩
      · rw [hoc, stopDecision_clusters_untargeted _ _ cs ocs hcl] at hd
        have hb := Option.some.inj hd
        rw [hne] at hb
        exact absurd hb (by decide)
      · rw [stopDecision_no_clusters false oc _ _ hcl] at hd
        have hb := Option.some.inj hd
        rw [hch] at hb
        exact absurd hb (by decide)

/-- Witness for the C3 theorem: a concrete untargeted step that flips aa to
cc, whose outputs carry no clusters and whose compared fields changed, is a
stopping step. -/
theorem untargeted_stop_iff_witness :
    (hotflipStep exCfg exOracle false none exStateU = .stopped exStopU ∨
     hotflipStep exCfg exOracle false none exStateU = .continued exStopU) ∧
    (hotflipStep exCfg exOracle false none exStateU = .stopped exStopU ↔
      ((∃ cs ocs, exStopU.outputs.clusters = some cs ∧ (none : Option Clusters) = some ocs ∧
          clustersSetEq ocs cs = false) ∨
       (exStopU.outputs.clusters = none ∧ exOracle.changedOf exStopU.tokens = true))) :=
  ⟨Or.inl (by decide),
    untargeted_stop_iff exCfg exOracle none exStateU exStopU (Or.inl (by decide))⟩

/-- C2: after a flip in the targeted loop, the loop stops exactly when the
fresh outputs carry clusters whose set diverges from the original snapshot
(the same divergence rule as the untargeted loop), or when the compared
fields are unchanged relative to the target-labeled reference. -/
theorem targeted_stop_iff (cfg : AttackCfg) (oracle : Oracle) (oc : Option Clusters)
    (s s2 : LoopState)
    (h : hotflipStep cfg oracle true oc s = .stopped s2 ∨
         hotflipStep cfg oracle true oc s = .continued s2) :
    (hotflipStep cfg oracle true oc s = .stopped s2 ↔
      ((∃ cs ocs, s2.outputs.clusters = some cs ∧ oc = some ocs ∧
          clustersSetEq ocs cs = false) ∨
       oracle.changedOf s2.tokens = false)) := by
  constructor
  · intro hst
    have hd := step_stopped_decision cfg oracle true oc s s2 hst
    cases hcl : s2.outputs.clusters with
    | some cs =>
        cases hoc : oc with
        | none =>
            rw [hoc, stopDecision_clusters_no_orig true _ _ cs hcl] at hd
            exact Option.noConfusion hd
        | some ocs =>
            rw [hoc, stopDecision_clusters_targeted _ _ cs ocs hcl] at hd
            cases hq : clustersSetEq ocs cs with
            | false => exact Or.inl ⟨cs, ocs, rfl, rfl, hq⟩
            | true =>
                rw [hq] at hd
                simp at hd
                exact Or.inr hd
    | none =>
        rw [stopDecision_no_clusters true oc _ _ hcl] at hd
        simp at hd
        exact Or.inr hd
  · intro hrhs
    rcases h with hst | hct
    · exact hst
    · exfalso
      have hd := step_continued_decision cfg oracle true oc s s2 hct
      rcases hrhs with ⟨cs, ocs, hcl, hoc, hne⟩ | hch
      · rw [hoc, stopDecision_clusters_targeted _ _ cs ocs hcl] at hd
        rw [hne] at hd
        simp at hd
      · cases hcl : s2.outputs.clusters with
        | none =>
            rw [stopDecision_no_clusters true oc _ _ hcl] at hd
            simp [hch] at hd
        | some cs =>
            cases hoc : oc with
            | none =>
                rw [hoc, stopDecision_clusters_no_orig true _ _ cs hcl] at hd
                exact Option.noConfusion hd
            | some ocs =>
                rw [hoc, stopDecision_clusters_targeted _ _ cs ocs hcl] at hd
                cases hq : clustersSetEq ocs cs with
                | false => rw [hq] at hd; simp at hd
                | true => rw [hq] at hd; simp [hch] at hd

/-- Witness for the C2 theorem: a concrete targeted step whose compared
fields are unchanged relative to the target labeling is a stopping step. -/
theorem targeted_stop_iff_witness :
    (hotflipStep exCfg exOracle true none exStateU = .stopped exStopT ∨
     hotflipStep exCfg exOracle true none exStateU = .continued exStopT) ∧
    (hotflipStep exCfg exOracle true none exStateU = .stopped exStopT ↔
      ((∃ cs ocs, exStopT.outputs.clusters = some cs ∧ (none : Option Clusters) = some ocs ∧
          clustersSetEq ocs cs = false) ∨
       exOracle.changedOf exStopT.tokens = false)) :=
  ⟨Or.inl (by decide),
    targeted_stop_iff exCfg exOracle none exStateU exStopT (Or.inl (by decide))⟩

/-- C4: every completed iteration (of either attack variant) appends exactly
one position to the flipped set: that position was not previously flipped or
pre-masked (pre-masked ignore-list positions live in the flipped set from
loop entry), is in range, and is not covered by any structured-output span
of the current outputs at selection time; no position is ever removed. -/
theorem flipped_set_step_invariants (cfg : AttackCfg) (oracle : Oracle) (tg : Bool)
    (oc : Option Clusters) (s s2 : LoopState)
    (hg : s.grads.length = s.tokens.length)
    (h : hotflipStep cfg oracle tg oc s = .stopped s2 ∨
         hotflipStep cfg oracle tg oc s = .continued s2) :
    ∃ idx, s2.flipped = s.flipped ++ [idx] ∧ idx ∉ s.flipped ∧ idx < s.tokens.length ∧
      ¬ spanCoveredP s.outputs.clusters idx ∧ ∀ j ∈ s.flipped, j ∈ s2.flipped := by
  obtain ⟨idx, hidx, hnin, hcov, hflip, _, _, _, _⟩ := step_spec cfg oracle tg oc s s2 hg h
  refine ⟨idx, hflip, hnin, hidx, hcov, ?_⟩
  intro j hj
  rw [hflip]
  exact List.mem_append_left _ hj

/-- Witness for the C4 theorem on a concrete completed step. -/
theorem flipped_set_step_invariants_witness :
    exStateU.grads.length = exStateU.tokens.length ∧
    (hotflipStep exCfg exOracle false none exStateU = .stopped exStopU ∨
     hotflipStep exCfg exOracle false none exStateU = .continued exStopU) ∧
    (∃ idx, exStopU.flipped = exStateU.flipped ++ [idx] ∧ idx ∉ exStateU.flipped ∧
      idx < exStateU.tokens.length ∧ ¬ spanCoveredP exStateU.outputs.clusters idx ∧
      ∀ j ∈ exStateU.flipped, j ∈ exStopU.flipped) :=
  ⟨by decide, Or.inl (by decide),
    flipped_set_step_invariants exCfg exOracle false none exStateU exStopU
      (by decide) (Or.inl (by decide))⟩

/-- C5: with one gradient vector per position, the attack loop (either
variant) never exhausts fuel (token count + 1), so it always halts; the
number of completed iterations is at most the token count; and when every
position is pre-masked at entry the loop exits at once, without error and
with the state untouched. -/
theorem attack_loop_termination (cfg : AttackCfg) (oracle : Oracle) (tg : Bool)
    (oc : Option Clusters) (tokens : List String) (premask : List ℕ)
    (hgc : ∀ ts, (oracle.gradsOf ts).length = ts.length)
    (hnd : premask.Nodup) (hb : ∀ i ∈ premask, i < tokens.length) :
    (∀ s2, runLoop cfg oracle tg oc (tokens.length + 1)
        (initialState oracle tokens premask) 0 ≠ .outOfFuel s2) ∧
    (∀ s2 n, runLoop cfg oracle tg oc (tokens.length + 1)
        (initialState oracle tokens premask) 0 = .finished s2 n → n ≤ tokens.length) ∧
    (tokens ≠ [] → (∀ i, i < tokens.length → i ∈ premask) →
      runLoop cfg oracle tg oc (tokens.length + 1)
          (initialState oracle tokens premask) 0 =
        .finished (initialState oracle tokens premask) 0) := by
  have hgl : (initialState oracle tokens premask).grads.length =
      (initialState oracle tokens premask).tokens.length := by
    simp [initialState, hgc]
  refine ⟨?_, ?_, ?_⟩
  · intro s2
    refine runLoop_not_outOfFuel cfg oracle tg oc hgc (tokens.length + 1) _ 0 hnd hb hgl ?_ s2
    simp [initialState]
  · intro s2 n hrun
    have hle := runLoop_iters_le cfg oracle tg oc hgc (tokens.length + 1) _ 0 s2 n hnd hb hgl hrun
    simp only [initialState] at hle
    omega
  · intro hne hall
    exact runLoop_exits_when_all_masked cfg oracle tg oc tokens.length _ 0 hgl hne hall

/-- Witness for the C5 theorem on a concrete one-token instance. -/
theorem attack_loop_termination_witness :
    (∀ ts, (exOracle.gradsOf ts).length = ts.length) ∧ ([] : List ℕ).Nodup ∧
      (∀ i ∈ ([] : List ℕ), i < (["aa"] : List String).length) ∧
    (∀ s2, runLoop exCfg exOracle false none ((["aa"] : List String).length + 1)
        (initialState exOracle ["aa"] []) 0 ≠ .outOfFuel s2) ∧
    (∀ s2 n, runLoop exCfg exOracle false none ((["aa"] : List String).length + 1)
        (initialState exOracle ["aa"] []) 0 = .finished s2 n →
        n ≤ (["aa"] : List String).length) := by
  have hgc : ∀ ts, (exOracle.gradsOf ts).length = ts.length := by
    intro ts
    simp [exOracle]
  have h := attack_loop_termination exCfg exOracle false none ["aa"] [] hgc
    List.nodup_nil (by intro i hi; exact absurd hi (List.not_mem_nil i))
  exact ⟨hgc, List.nodup_nil, by intro i hi; exact absurd hi (List.not_mem_nil i), h.1, h.2.1⟩

/-- C7 counterexample: with targeted mode, target word "." and ignore list
["."], the single position's surface text is in the ignore list, yet the
code does not pre-mask it (the ignore list is never consulted once a target
word is supplied): the claim's "pre-masked if its surface text is in the
ignore list" fails as stated. -/
theorem premask_ignore_list_counterexample :
    (["."] : List String).getD 0 "" ∈ (["."] : List String) ∧
    (0 : ℕ) ∉ premaskTargeted ["."] (some ".") ["."] := by decide

/-- C7 (amended): when a target word is supplied, a position is pre-masked
exactly when its surface text differs from the target word — the ignore list
is not consulted; without a target word (and in the untargeted attack) a
position is pre-masked exactly when its text is in the ignore list.
Pre-masked positions stay in the flipped set across every completed
iteration and the newly flipped position is never one of them, so only
original occurrences of the target word are ever flipped. -/
theorem premask_rule (ignore : List String) (w : String) (tokens : List String) (i : ℕ)
    (hi : i < tokens.length) :
    (i ∈ premaskTargeted ignore (some w) tokens ↔ tokens.getD i "" ≠ w) ∧
    (i ∈ premaskTargeted ignore none tokens ↔ tokens.getD i "" ∈ ignore) ∧
    (i ∈ premaskUntargeted ignore tokens ↔ tokens.getD i "" ∈ ignore) ∧
    (∀ (cfg : AttackCfg) (oracle : Oracle) (tg : Bool) (oc : Option Clusters)
        (s s2 : LoopState),
      s.grads.length = s.tokens.length →
      (hotflipStep cfg oracle tg oc s = .stopped s2 ∨
       hotflipStep cfg oracle tg oc s = .continued s2) →
      (∀ j ∈ s.flipped, j ∈ s2.flipped) ∧
        ∃ idx, s2.flipped = s.flipped ++ [idx] ∧ idx ∉ s.flipped) := by
  refine ⟨?_, ?_, ?_, ?_⟩
  · simp [premaskTargeted, List.mem_filter, List.mem_range, hi]
  · simp [premaskTargeted, List.mem_filter, List.mem_range, hi]
  · simp [premaskUntargeted, List.mem_filter, List.mem_range, hi]
  · intro cfg oracle tg oc s s2 hg h
    obtain ⟨idx, _, hnin, _, hflip, _, _, _, _⟩ := step_spec cfg oracle tg oc s s2 hg h
    refine ⟨?_, idx, hflip, hnin⟩
    intro j hj
    rw [hflip]
    exact List.mem_append_left _ hj

/-- Witness for the amended C7 theorem at explicit inputs. -/
theorem premask_rule_witness :
    (0 : ℕ) < (["aa"] : List String).length ∧
    ((0 : ℕ) ∈ premaskTargeted ["."] (some "bb") ["aa"] ↔
      (["aa"] : List String).getD 0 "" ≠ "bb") ∧
    ((0 : ℕ) ∈ premaskTargeted ["."] none ["aa"] ↔
      (["aa"] : List String).getD 0 "" ∈ (["."] : List String)) :=
  have h := premask_rule ["."] "bb" ["aa"] 0 (by decide)
  ⟨by decide, h.1, h.2.1⟩

/-- C8: calling the targeted attack without a target fails at once with the
configuration error, and the result does not depend on the instance
conversion or on any predictor behaviour bundled with the instances — no
instance is built or mutated and no gradient is computed. -/
theorem targeted_attack_requires_target :
    ∀ (cfg cfg2 : AttackCfg) (ig ig2 : Option (List String))
      (toInst toInst2 : String → List InstanceRun) (tw tw2 : Option String),
      targetedAttackFromJson cfg ig toInst none tw = Except.error "set the target" ∧
      targetedAttackFromJson cfg ig toInst none tw =
        targetedAttackFromJson cfg2 ig2 toInst2 none tw2 := by
  intro cfg cfg2 ig ig2 toInst toInst2 tw tw2
  exact ⟨rfl, rfl⟩

theorem buildInputs_tokens (vocabTokens : List String) (indexers : List TokenIndexerKind) :
    (buildInputs vocabTokens indexers).tokens = List.range vocabTokens.length := by
  unfold buildInputs
  have haux : ∀ (ixs : List TokenIndexerKind) (b : EncodedBatch),
      (ixs.foldl (addIndexerEncoding vocabTokens) b).tokens = b.tokens := by
    intro ixs
    induction ixs with
    | nil => intro b; rfl
    | cons ix ixs ih =>
        intro b
        rw [List.foldl_cons, ih]
        cases ix <;> rfl
  rw [haux]

/-- C9: for every encoding-scheme configuration the constructed Embedding is
non-trainable, records the attack namespace's vocabulary size as its row
count, and is fed every vocabulary id exactly once; when the embedding stage
is a direct lookup table its weight matrix is taken verbatim with no forward
pass, and when it is an encoder stage honouring the one-row-per-token
contract the weight has one row per vocabulary id. -/
theorem embedding_matrix_spec (vocabTokens : List String) (indexers : List TokenIndexerKind)
    (layer : EmbeddingLayer) :
    (constructEmbeddingMatrix vocabTokens indexers layer).1.trainable = false ∧
    (constructEmbeddingMatrix vocabTokens indexers layer).1.numEmbeddings =
      vocabTokens.length ∧
    (buildInputs vocabTokens indexers).tokens = List.range vocabTokens.length ∧
    (∀ w, layer = .lookup w →
      (constructEmbeddingMatrix vocabTokens indexers layer).1.weight = w ∧
      (constructEmbeddingMatrix vocabTokens indexers layer).2 = false) ∧
    (∀ f, layer = .encoderStage f →
      (constructEmbeddingMatrix vocabTokens indexers layer).2 = true ∧
      ((f (buildInputs vocabTokens indexers)).length =
          (buildInputs vocabTokens indexers).tokens.length →
        (constructEmbeddingMatrix vocabTokens indexers layer).1.weight.length =
          vocabTokens.length)) := by
  refine ⟨rfl, rfl, buildInputs_tokens _ _, ?_, ?_⟩
  · intro w hw
    subst hw
    exact ⟨rfl, rfl⟩
  · intro f hf
    subst hf
    refine ⟨rfl, ?_⟩
    intro hlen
    have ht := buildInputs_tokens vocabTokens indexers
    have : (buildInputs vocabTokens indexers).tokens.length = vocabTokens.length := by
      rw [ht]; simp
    calc (constructEmbeddingMatrix vocabTokens indexers (.encoderStage f)).1.weight.length
        = (f (buildInputs vocabTokens indexers)).length := rfl
      _ = (buildInputs vocabTokens indexers).tokens.length := hlen
      _ = vocabTokens.length := this

/-- Witness for the C9 theorem: a two-token lookup table taken verbatim with
no forward pass, and a one-token encoder stage with one row per token. -/
theorem embedding_matrix_spec_witness :
    ((constructEmbeddingMatrix ["aa", "bb"] [] (.lookup [[1], [2]])).1.weight = [[1], [2]] ∧
     (constructEmbeddingMatrix ["aa", "bb"] [] (.lookup [[1], [2]])).2 = false) ∧
    ((constructEmbeddingMatrix ["aa"] [] (.encoderStage exEncoder)).2 = true ∧
     (constructEmbeddingMatrix ["aa"] [] (.encoderStage exEncoder)).1.weight.length = 1) := by
  have h1 := embedding_matrix_spec ["aa", "bb"] [] (.lookup [[1], [2]])
  have h2 := embedding_matrix_spec ["aa"] [] (.encoderStage exEncoder)
  refine ⟨h1.2.2.2.1 [[1], [2]] rfl, ?_⟩
  have he := h2.2.2.2.2 exEncoder rfl
  exact ⟨he.1, he.2 (by decide)⟩

theorem runInstances_cons (cfg : AttackCfg) (tg : Bool) (pm : List String → List ℕ)
    (r : InstanceRun) (rest : List InstanceRun) (po : Option Clusters) :
    runInstances cfg tg pm (r :: rest) po =
      match runOneInstance cfg tg pm po r with
      | none => none
      | some (ft, outs, po2) =>
          if outs.clusters.isSome then some ([ft], outs)
          else
            match rest with
            | [] => some ([ft], outs)
            | r2 :: rest2 =>
                match runInstances cfg tg pm (r2 :: rest2) po2 with
                | none => none
                | some (fts, louts) => some (ft :: fts, louts) := by
  rw [runInstances]

/-- The outputs returned by the instance loop are those of the last instance
it processed, and the number of collected final token lists counts the
processed instances. -/
theorem runInstances_spec (cfg : AttackCfg) (tg : Bool) (pm : List String → List ℕ) :
    ∀ (runs : List InstanceRun) (po : Option Clusters) (fts : List (List String))
      (louts : Outputs),
      runInstances cfg tg pm runs po = some (fts, louts) →
      ∃ k po2 st, k < runs.length ∧ fts.length = k + 1 ∧
        runOneInstance cfg tg pm po2 (runs.getD k default) = some st ∧ louts = st.2.1 := by
  intro runs
  induction runs with
  | nil => intro po fts louts h; exact Option.noConfusion h
  | cons r rest ih =>
      intro po fts louts h
      rw [runInstances_cons] at h
      split at h
      · exact Option.noConfusion h
      next ft outs po2 hone =>
        split at h
        · injection h with h2
          injection h2 with hf ho
          exact ⟨0, po, (ft, outs, po2), by simp, by rw [← hf]; rfl, hone, ho.symm⟩
        · split at h
          · injection h with h2
            injection h2 with hf ho
            exact ⟨0, po, (ft, outs, po2), by simp, by rw [← hf]; rfl, hone, ho.symm⟩
          next r2 rest2 =>
            split at h
            · exact Option.noConfusion h
            next fts2 louts2 hrec =>
              injection h with h2
              injection h2 with hf ho
              obtain ⟨k, po3, st, hk, hlen, hone2, hlout⟩ :=
                ih po2 fts2 louts2 hrec
              refine ⟨k + 1, po3, st, by simpa using hk, ?_, ?_, ?_⟩
              · rw [← hf]; simp [hlen]
              · simpa using hone2
              · rw [← ho]; exact hlout

/-- C10: when the untargeted attack returns a result, its "original" field is
the pre-attack token sequence of the first labeled instance only, and its
"outputs" field is exactly the outputs left by the last instance processed
(the other instances' pre-attack sequences are not reported). -/
theorem attack_result_reporting (cfg : AttackCfg) (ig : Option (List String))
    (runs : List InstanceRun) (r : AttackResult)
    (h : attackFromJson cfg ig runs = some r) :
    r.original = (runs.getD 0 default).tokens ∧
    ∃ k po2 st, k < runs.length ∧ r.final.length = k + 1 ∧
      runOneInstance cfg false (premaskUntargeted (ig.getD defaultIgnoreTokens)) po2
        (runs.getD k default) = some st ∧
      r.outputs = st.2.1 := by
  cases runs with
  | nil => exact Option.noConfusion h
  | cons r0 rest =>
      have hunf : attackFromJson cfg ig (r0 :: rest) =
        match runInstances cfg false (premaskUntargeted (ig.getD defaultIgnoreTokens))
            (r0 :: rest) none with
        | none => none
        | some (fts, outs) =>
            some ⟨fts, r0.tokens, outs⟩ := rfl
      rw [hunf] at h
      split at h
      · exact Option.noConfusion h
      next fts outs heq =>
        injection h with h2
        obtain ⟨k, po2, st, hk, hlen, hone, hlout⟩ :=
          runInstances_spec cfg false _ (r0 :: rest) none fts outs heq
        rw [← h2]
        exact ⟨rfl, k, po2, st, hk, hlen, hone, hlout⟩

/-- Witness for the C10 theorem on a concrete single-instance attack. -/
theorem attack_result_reporting_witness :
    attackFromJson exCfg none [exRun] = some ⟨[["cc"]], ["aa"], ⟨none, 7⟩⟩ ∧
    (⟨[["cc"]], ["aa"], ⟨none, 7⟩⟩ : AttackResult).original =
      (([exRun] : List InstanceRun).getD 0 default).tokens ∧
    ∃ k po2 st, k < ([exRun] : List InstanceRun).length ∧
      ([[ "cc" ]] : List (List String)).length = k + 1 ∧
      runOneInstance exCfg false
        (premaskUntargeted ((none : Option (List String)).getD defaultIgnoreTokens)) po2
        (([exRun] : List InstanceRun).getD k default) = some st ∧
      (⟨[["cc"]], ["aa"], ⟨none, 7⟩⟩ : AttackResult).outputs = st.2.1 := by
  have hrun : attackFromJson exCfg none [exRun] = some ⟨[["cc"]], ["aa"], ⟨none, 7⟩⟩ := by
    decide
  have h := attack_result_reporting exCfg none [exRun] ⟨[["cc"]], ["aa"], ⟨none, 7⟩⟩ hrun
  exact ⟨hrun, h.1, h.2⟩

end Hotflip
